import Mathlib

/-!
# Verification of the `kicad-sexp` S-expression parser

Shallow embedding of `src/kicad-sexp/src/lib.rs` (a chumsky-based parser).
The source text is modelled as a `List Char`; every parser from the Rust
source becomes a function from the remaining input to an optional
`(value, remaining input)` pair.  The chumsky combinator semantics are
embedded directly:

* `.padded()` skips whitespace (`Char::is_whitespace`, ASCII cases) before
  and after the wrapped pattern;
* `one_of(" \n\t)").repeated().at_least(1).rewind()` is a non-consuming
  lookahead that demands the next character be a separator;
* `choice`/`.or` try alternatives in order, rewinding input and any
  secondary errors emitted by a failed alternative;
* `.recover_with(via_parser(nested_delimiters('(', ')', [], |_| Invalid)))`
  scans from an opening `(` tracking nesting depth to the matching `)`,
  yields an `Invalid` node, and *emits* the suppressed parse error into the
  secondary error list (chumsky's `ViaParser::recover` emits the alt error);
* `Parser::parse` runs the parser followed by `end()`: if input remains the
  result has no output and the failure is appended to the error list.

Errors are modelled minimally as the length of the remaining input at the
point where the error was recorded (the claims under verification depend
only on whether the error list is empty, never on error payloads).
-/

namespace KicadSexp

/-- ASCII whitespace, as consumed by chumsky's `.padded()`
(`Char::is_whitespace` restricted to the ASCII range). -/
def wsChar (c : Char) : Bool :=
  c = ' ' || c = '\t' || c = '\n' || c = '\r'

/-- Skip insignificant padding, as `.padded()` does on each side. -/
def skipWs (l : List Char) : List Char := l.dropWhile wsChar

/-- The separator set of the trailing lookahead `one_of(" \n\t)")`. -/
def sepChar (c : Char) : Bool :=
  c = ' ' || c = '\n' || c = '\t' || c = ')'

/-- Model of `one_of(" \n\t)").repeated().at_least(1).rewind()`: succeeds exactly when
the next character is a separator; consumes nothing. -/
def sepLook : List Char → Bool
  | [] => false
  | c :: _ => sepChar c

/-- A base-16 digit, as accepted by `text::digits(16)` (`char::is_digit(16)`). -/
def hexDig (c : Char) : Bool :=
  c.isDigit || ('a' ≤ c && c ≤ 'f') || ('A' ≤ c && c ≤ 'F')

/-- A character allowed in a bare symbol: `none_of(" \"()\n\t")`. -/
def symChar (c : Char) : Bool :=
  !(c = ' ' || c = '"' || c = '(' || c = ')' || c = '\n' || c = '\t')

/-- The `Sexp<'a>` node type of the source, with text spans as `List Char`. -/
inductive Sexp where
  | Invalid : Sexp
  | Symbol : List Char → Sexp
  | StringLiteral : List Char → Sexp
  | IntLiteral : List Char → Sexp
  | HexIntLiteral : List Char → Sexp
  | FloatLiteral : List Char → Sexp
  | List : List Sexp → Sexp
deriving Repr

/-- The body of a string literal:
`none_of("\\\"").or(parse_escape()).repeated().to_slice()`.
Returns the raw matched slice (escapes recognized but not decoded, exactly
as `to_slice` does) together with the remaining input. -/
def strBody : List Char → List Char × List Char
  | [] => ([], [])
  | c :: r =>
    if c = '"' then ([], c :: r)
    else if c = '\\' then
      match r with
      | [] => ([], c :: r)
      | c2 :: r2 =>
        if c2 = '\\' ∨ c2 = '"' ∨ c2 = 'n' ∨ c2 = 't' then
          let (s, r3) := strBody r2
          (c :: c2 :: s, r3)
        else ([], c :: r)
    else
      let (s, r3) := strBody r
      (c :: s, r3)

/-- Model of `parse_string` from the source: a `"`-delimited raw slice with escape
recognition, trailing-separator lookahead, surrounded by padding. -/
def parse_string (input : List Char) : Option (List Char × List Char) :=
  match skipWs input with
  | [] => none
  | c :: r =>
    if c = '"' then
      match (strBody r).2 with
      | [] => none
      | c2 :: r3 =>
        if c2 = '"' then
          if sepLook r3 then some ((strBody r).1, skipWs r3) else none
        else none
    else none

/-- Model of `just('-').or_not()`: consume an optional leading minus sign. -/
def signSplit (l : List Char) : List Char × List Char :=
  match l with
  | c :: r => if c = '-' then (['-'], r) else ([], l)
  | [] => ([], l)

/-- After the optional sign: `text::digits(10)` (one or more, greedy),
slice, trailing-separator lookahead, trailing padding. -/
def intTail (sgn i2 : List Char) : Option (List Char × List Char) :=
  let ds := i2.takeWhile Char.isDigit
  let r := i2.dropWhile Char.isDigit
  if ds = [] then none
  else if sepLook r then some (sgn ++ ds, skipWs r) else none

/-- Model of `parse_int` from the source: `just('-').or_not().then(text::digits(10))`,
slice, trailing-separator lookahead, padding. -/
def parse_int (input : List Char) : Option (List Char × List Char) :=
  intTail (signSplit (skipWs input)).1 (signSplit (skipWs input)).2

/-- Model of `just("0x").or_not()`: consume an optional `0x`. -/
def hexPre (l : List Char) : List Char × List Char :=
  match l with
  | c1 :: c2 :: r => if c1 = '0' ∧ c2 = 'x' then (['0', 'x'], r) else ([], l)
  | _ => ([], l)

/-- Model of `text::digits(16).exactly(8)`: exactly eight base-16 digits. -/
def hex8 (l : List Char) : Option (List Char × List Char) :=
  if (l.take 8).length = 8 ∧ (l.take 8).all hexDig then
    some (l.take 8, l.drop 8)
  else none

/-- Model of `just('_')`. -/
def uscore (l : List Char) : Option (List Char) :=
  match l with
  | c :: r => if c = '_' then some r else none
  | [] => none

/-- After the optional `0x`: four groups of exactly 8 hex digits joined by
`_`, slice, trailing-separator lookahead, trailing padding. -/
def hexTail (pre i2 : List Char) : Option (List Char × List Char) :=
  match hex8 i2 with
  | none => none
  | some (g1, r1) =>
    match uscore r1 with
    | none => none
    | some r1b =>
      match hex8 r1b with
      | none => none
      | some (g2, r2) =>
        match uscore r2 with
        | none => none
        | some r2b =>
          match hex8 r2b with
          | none => none
          | some (g3, r3) =>
            match uscore r3 with
            | none => none
            | some r3b =>
              match hex8 r3b with
              | none => none
              | some (g4, r4) =>
                if sepLook r4 then
                  some (pre ++ g1 ++ '_' :: g2 ++ '_' :: g3 ++ '_' :: g4, skipWs r4)
                else none

/-- Model of `parse_hexint64` from the source: optional `0x`, four groups of exactly
8 hex digits joined by `_`, slice, trailing-separator lookahead, padding. -/
def parse_hexint64 (input : List Char) : Option (List Char × List Char) :=
  hexTail (hexPre (skipWs input)).1 (hexPre (skipWs input)).2

/-- After the optional sign: digits, `.`, digits, slice, trailing-separator
lookahead, trailing padding. -/
def floatTail (sgn i2 : List Char) : Option (List Char × List Char) :=
  let ds := i2.takeWhile Char.isDigit
  let r := i2.dropWhile Char.isDigit
  if ds = [] then none
  else
    match r with
    | [] => none
    | c :: r2 =>
      if c = '.' then
        let ds2 := r2.takeWhile Char.isDigit
        let r3 := r2.dropWhile Char.isDigit
        if ds2 = [] then none
        else if sepLook r3 then some (sgn ++ ds ++ '.' :: ds2, skipWs r3) else none
      else none

/-- Model of `parse_float` from the source: optional `-`, digits, `.`, digits, slice,
trailing-separator lookahead, padding. -/
def parse_float (input : List Char) : Option (List Char × List Char) :=
  floatTail (signSplit (skipWs input)).1 (signSplit (skipWs input)).2

/-- Model of `parse_symbol` from the source: one or more `none_of(" \"()\n\t")`
characters, slice, trailing-separator lookahead, padding. -/
def parse_symbol (input : List Char) : Option (List Char × List Char) :=
  let i1 := skipWs input
  let sp := i1.takeWhile symChar
  let r := i1.dropWhile symChar
  if sp = [] then none
  else if sepLook r then some (sp, skipWs r) else none

/-- The literal `choice(...)` of `parser()`, in source priority order:
string, int, hexint64, float, symbol. -/
def tryLiterals (input : List Char) : Option (Sexp × List Char) :=
  match parse_string input with
  | some (t, r) => some (Sexp.StringLiteral t, r)
  | none =>
    match parse_int input with
    | some (t, r) => some (Sexp.IntLiteral t, r)
    | none =>
      match parse_hexint64 input with
      | some (t, r) => some (Sexp.HexIntLiteral t, r)
      | none =>
        match parse_float input with
        | some (t, r) => some (Sexp.FloatLiteral t, r)
        | none =>
          match parse_symbol input with
          | some (t, r) => some (Sexp.Symbol t, r)
          | none => none

/-- The scan of `nested_delimiters('(', ')', [], ..)` after the opening `(`:
track the parenthesis nesting depth `d` (initially 1), skipping every
non-delimiter character, until the matching `)`; fail at end of input. -/
def scanRec : List Char → Nat → Option (List Char)
  | [], _ => none
  | c :: r, d =>
    if c = '(' then scanRec r (d + 1)
    else if c = ')' then
      if d ≤ 1 then some r else scanRec r (d - 1)
    else scanRec r d

/-- The recovery strategy `via_parser(nested_delimiters('(', ')', [], |_| Invalid))`:
from an opening `(` at the current position, skip to the matching `)` and
produce `Invalid`, emitting the suppressed error (modelled as the length of
the remaining input at the recovery point). -/
def tryRecover (input : List Char) : Option (Sexp × List Nat × List Char) :=
  match input with
  | c :: r =>
    if c = '(' then
      match scanRec r 1 with
      | some rest => some (Sexp.Invalid, [input.length], rest)
      | none => none
    else none
  | [] => none

mutual

/-- One item of `parser()`: the literal `choice`, or a `(`-delimited
recursive list (padded), with bracket recovery on failure.  Fuel bounds the
recursion depth; `none` is chumsky failure (input and emitted errors are
rewound by the caller). -/
def pItem : Nat → List Char → Option (Sexp × List Nat × List Char)
  | 0, _ => none
  | fuel + 1, input =>
    match tryLiterals input with
    | some (x, rest) => some (x, [], rest)
    | none =>
      match skipWs input with
      | c :: r =>
        if c = '(' then
          match pItems fuel r with
          | (cs, es, r2) =>
            match r2 with
            | c2 :: r3 =>
              if c2 = ')' then some (Sexp.List cs, es, skipWs r3)
              else tryRecover input
            | [] => tryRecover input
        else tryRecover input
      | [] => tryRecover input

/-- Model of `….repeated().collect()`: repeat `pItem` until it fails, collecting the
nodes and the emitted (recovery) errors in order. -/
def pItems : Nat → List Char → List Sexp × List Nat × List Char
  | 0, input => ([], [], input)
  | fuel + 1, input =>
    match pItem fuel input with
    | none => ([], [], input)
    | some (x, es, rest) =>
      match pItems fuel rest with
      | (xs, es2, rest2) => (x :: xs, es ++ es2, rest2)

end

/-- The result of `Parser::parse`: an optional output and the error list. -/
structure ParseResult where
  output : Option (List Sexp)
  errors : List Nat
deriving Repr

/-- Fuel sufficient for any run of the recursive grammar on `s`: every
recursive call either consumes input or descends past a consumed `(`. -/
def parserFuel (s : List Char) : Nat := 2 * s.length + 2

/-- Model of `parser().parse(s)`: run the repeated item grammar, then `end()`.  If
input remains, the parse has no output and the failure is appended to the
error list; otherwise the collected nodes are the output alongside any
errors emitted by recovery. -/
def parse (s : List Char) : ParseResult :=
  match pItems (parserFuel s) s with
  | (xs, es, rest) =>
    if rest = [] then ⟨some xs, es⟩ else ⟨none, es ++ [rest.length]⟩

end KicadSexp
namespace KicadSexp

/-- `t` is a suffix of `s`. -/
def SufOf (t s : List Char) : Prop := ∃ u, s = u ++ t

/-- `t` is a contiguous slice of `s`. -/
def SliceOf (t s : List Char) : Prop := ∃ u v, s = u ++ t ++ v

theorem sufOf_refl (s : List Char) : SufOf s s := ⟨[], rfl⟩

theorem SufOf.trans {a b c : List Char} (h1 : SufOf a b) (h2 : SufOf b c) : SufOf a c := by
  obtain ⟨u, rfl⟩ := h1
  obtain ⟨v, rfl⟩ := h2
  exact ⟨v ++ u, by rw [List.append_assoc]⟩

theorem sufOf_cons (c : Char) (t : List Char) : SufOf t (c :: t) := ⟨[c], rfl⟩

theorem sufOf_append (u t : List Char) : SufOf t (u ++ t) := ⟨u, rfl⟩

theorem SufOf.sliceOf {t s : List Char} (h : SufOf t s) : SliceOf t s := by
  obtain ⟨u, rfl⟩ := h
  exact ⟨u, [], by simp⟩

theorem SliceOf.widen {t m s : List Char} (h1 : SliceOf t m) (h2 : SufOf m s) : SliceOf t s := by
  obtain ⟨u, v, rfl⟩ := h1
  obtain ⟨w, rfl⟩ := h2
  exact ⟨w ++ u, v, by simp⟩

theorem sufOf_dropWhile (p : Char → Bool) (l : List Char) : SufOf (l.dropWhile p) l := by
  induction l with
  | nil => exact ⟨[], rfl⟩
  | cons c r ih =>
    rw [List.dropWhile_cons]
    split
    · exact ih.trans (sufOf_cons c r)
    · exact sufOf_refl _

theorem sufOf_skipWs (l : List Char) : SufOf (skipWs l) l := sufOf_dropWhile _ l

theorem sufOf_drop (n : Nat) (l : List Char) : SufOf (l.drop n) l :=
  ⟨l.take n, (List.take_append_drop n l).symm⟩

theorem all_of_sufOf {P : Char → Prop} {t s : List Char} (h : SufOf t s)
    (hs : ∀ c ∈ s, P c) : ∀ c ∈ t, P c := by
  obtain ⟨u, rfl⟩ := h
  exact fun c hc => hs c (List.mem_append_right u hc)

theorem takeWhile_append_all {p : Char → Bool} (l1 l2 : List Char)
    (h1 : ∀ c ∈ l1, p c = true) (h2 : ∀ c, l2.head? = some c → p c = false) :
    (l1 ++ l2).takeWhile p = l1 ∧ (l1 ++ l2).dropWhile p = l2 := by
  induction l1 with
  | nil =>
    cases l2 with
    | nil => simp
    | cons c r => have := h2 c rfl; simp [List.takeWhile_cons, List.dropWhile_cons, this]
  | cons c r ih =>
    have hc := h1 c (by simp)
    have hih := ih (fun d hd => h1 d (by simp [hd]))
    simp [List.takeWhile_cons, List.dropWhile_cons, hc, hih.1, hih.2]

theorem skipWs_cons_of_not_ws {c : Char} (h : wsChar c = false) (r : List Char) :
    skipWs (c :: r) = c :: r := by
  simp [skipWs, List.dropWhile_cons, h]

theorem skipWs_eq_self {l : List Char} (h : ∀ c ∈ l, wsChar c = false) : skipWs l = l := by
  cases l with
  | nil => rfl
  | cons c r => exact skipWs_cons_of_not_ws (h c (by simp)) r

theorem symChar_spec {c : Char} (h : symChar c = true) :
    c ≠ ' ' ∧ c ≠ '"' ∧ c ≠ '(' ∧ c ≠ ')' ∧ c ≠ '\n' ∧ c ≠ '\t' := by
  simp only [symChar, Bool.not_eq_true', Bool.or_eq_false_iff, decide_eq_false_iff_not] at h
  tauto

theorem sepChar_eq_false_of_sym {c : Char} (h : symChar c = true) : sepChar c = false := by
  obtain ⟨h1, _, _, h4, h5, h6⟩ := symChar_spec h
  simp [sepChar, h1, h4, h5, h6]

theorem sepLook_eq_false_of_sym {l : List Char} (h : ∀ c ∈ l, symChar c = true) :
    sepLook l = false := by
  cases l with
  | nil => rfl
  | cons c r => exact sepChar_eq_false_of_sym (h c (by simp))

theorem not_ws_of_digit {c : Char} (h : c.isDigit = true) : wsChar c = false := by
  by_contra hne
  have hw : wsChar c = true := by revert hne; cases wsChar c <;> simp
  simp only [wsChar, Bool.or_eq_true, decide_eq_true_eq] at hw
  rcases hw with ((rfl | rfl) | rfl) | rfl <;> exact absurd h (by decide)

theorem isDigit_eq_false_of_sep {c : Char} (h : sepChar c = true) : c.isDigit = false := by
  simp only [sepChar, Bool.or_eq_true, decide_eq_true_eq] at h
  rcases h with ((rfl | rfl) | rfl) | rfl <;> decide

theorem strBody_nil : strBody [] = ([], []) := rfl

theorem strBody_quote (r : List Char) : strBody ('"' :: r) = ([], '"' :: r) := by
  rw [strBody.eq_def]; simp

theorem strBody_esc (c : Char) (r : List Char) (h : c = '\\' ∨ c = '"' ∨ c = 'n' ∨ c = 't') :
    strBody ('\\' :: c :: r) = ('\\' :: c :: (strBody r).1, (strBody r).2) := by
  rw [strBody.eq_def]; simp [h]

theorem strBody_other (c : Char) (r : List Char) (h1 : c ≠ '"') (h2 : c ≠ '\\') :
    strBody (c :: r) = (c :: (strBody r).1, (strBody r).2) := by
  rw [strBody.eq_def]; simp [h1, h2]

theorem strBody_split (l : List Char) : (strBody l).1 ++ (strBody l).2 = l := by
  induction l using strBody.induct <;>
    first
    | rfl
    | (rw [strBody.eq_def]; simp_all)

theorem strBody_clean (body : List Char) : ∀ (r : List Char), (∀ c ∈ body, c ≠ '"' ∧ c ≠ '\\') →
    strBody (body ++ '"' :: r) = (body, '"' :: r) := by
  induction body with
  | nil => intro r _; exact strBody_quote r
  | cons c t ih =>
    intro r h
    have hc := h c (by simp)
    have ht := ih r (fun d hd => h d (by simp [hd]))
    rw [List.cons_append, strBody_other c _ hc.1 hc.2, ht]

theorem strBody_all_clean (body : List Char) (h : ∀ c ∈ body, c ≠ '"' ∧ c ≠ '\\') :
    strBody body = (body, []) := by
  induction body with
  | nil => rfl
  | cons c t ih =>
    have hc := h c (by simp)
    have ht := ih (fun d hd => h d (by simp [hd]))
    rw [strBody_other c _ hc.1 hc.2, ht]

end KicadSexp
namespace KicadSexp

theorem signSplit_dash (r : List Char) : signSplit ('-' :: r) = (['-'], r) := by
  simp [signSplit]

theorem signSplit_other {c : Char} (h : c ≠ '-') (r : List Char) :
    signSplit (c :: r) = ([], c :: r) := by
  simp [signSplit, h]

theorem signSplit_nil : signSplit [] = ([], []) := rfl

theorem sufOf_signSplit (l : List Char) : SufOf (signSplit l).2 l := by
  cases l with
  | nil => exact sufOf_refl _
  | cons c r =>
    by_cases h : c = '-'
    · subst h; rw [signSplit_dash]; exact sufOf_cons _ _
    · rw [signSplit_other h]; exact sufOf_refl _

theorem intTail_none_sym {i2 : List Char} (h : ∀ c ∈ i2, symChar c = true) (sgn : List Char) :
    intTail sgn i2 = none := by
  simp only [intTail]
  split
  · rfl
  · rw [sepLook_eq_false_of_sym (all_of_sufOf (sufOf_dropWhile _ _) h)]
    rfl

theorem intTail_none_head {c : Char} (hdig : c.isDigit = false) (r sgn : List Char) :
    intTail sgn (c :: r) = none := by
  simp [intTail, List.takeWhile_cons, hdig]

theorem intTail_nil (sgn : List Char) : intTail sgn [] = none := rfl

theorem floatTail_none_sym {i2 : List Char} (h : ∀ c ∈ i2, symChar c = true) (sgn : List Char) :
    floatTail sgn i2 = none := by
  simp only [floatTail]
  split
  · rfl
  · have hdw : ∀ c ∈ i2.dropWhile Char.isDigit, symChar c = true :=
      all_of_sufOf (sufOf_dropWhile _ _) h
    split
    · rfl
    · next c r2 heq =>
      split
      · subst_eqs
        have hr2 : ∀ c ∈ r2, symChar c = true := by
          intro d hd
          exact hdw d (by rw [heq]; simp [hd])
        split
        · rfl
        · rw [sepLook_eq_false_of_sym (all_of_sufOf (sufOf_dropWhile _ _) hr2)]
          rfl
      · rfl

theorem floatTail_none_head {c : Char} (hdig : c.isDigit = false) (r sgn : List Char) :
    floatTail sgn (c :: r) = none := by
  simp [floatTail, List.takeWhile_cons, hdig]

theorem floatTail_nil (sgn : List Char) : floatTail sgn [] = none := rfl

theorem hex8_eq_some {l g r : List Char} (h : hex8 l = some (g, r)) :
    g = l.take 8 ∧ r = l.drop 8 ∧ g.length = 8 ∧ g.all hexDig = true := by
  unfold hex8 at h
  split at h
  · next hc => cases h; exact ⟨rfl, rfl, hc.1, hc.2⟩
  · cases h

theorem hex8_none_head {c : Char} (hhex : hexDig c = false) (r : List Char) :
    hex8 (c :: r) = none := by
  unfold hex8
  rw [if_neg]
  rintro ⟨hlen, hall⟩
  rw [show (8:Nat) = 7+1 from rfl, List.take_succ_cons, List.all_cons, hhex] at hall
  simp at hall

theorem hex8_nil : hex8 [] = none := by decide

theorem uscore_eq_some {l r : List Char} (h : uscore l = some r) : l = '_' :: r := by
  unfold uscore at h
  split at h
  · next c r' =>
    split at h
    · next hc => cases h; subst hc; rfl
    · cases h
  · cases h

theorem uscore_none_head {c : Char} (h : c ≠ '_') (r : List Char) : uscore (c :: r) = none := by
  simp [uscore, h]

theorem hexPre_cases (l : List Char) :
    hexPre l = ([], l) ∨ ∃ r, l = '0' :: 'x' :: r ∧ hexPre l = (['0', 'x'], r) := by
  unfold hexPre
  match l with
  | [] => left; rfl
  | [c] => left; rfl
  | c1 :: c2 :: r =>
    by_cases h : c1 = '0' ∧ c2 = 'x'
    · right; exact ⟨r, by rw [h.1, h.2], by simp [h]⟩
    · left; simp [h]

theorem hexPre_head {c1 : Char} (h : c1 ≠ '0') (l : List Char) (hl : l.head? = some c1) :
    hexPre l = ([], l) := by
  unfold hexPre
  match l, hl with
  | [c], _ => rfl
  | c1' :: c2 :: r, hl =>
    have : c1' = c1 := by simpa using hl
    subst this
    simp [h]

theorem sufOf_hexPre (l : List Char) : SufOf (hexPre l).2 l := by
  rcases hexPre_cases l with h | ⟨r, rfl, h⟩
  · rw [h]; exact sufOf_refl _
  · rw [h]; exact (sufOf_cons _ _).trans (sufOf_cons _ _) |>.trans (sufOf_refl _)

theorem hexTail_none_sym {i2 : List Char} (h : ∀ c ∈ i2, symChar c = true) (pre : List Char) :
    hexTail pre i2 = none := by
  unfold hexTail
  rcases h1 : hex8 i2 with _ | ⟨⟨g1, r1⟩⟩
  · rfl
  · have hr1 : ∀ c ∈ r1, symChar c = true := by
      obtain ⟨_, hr, _, _⟩ := hex8_eq_some h1
      exact hr ▸ all_of_sufOf (sufOf_drop 8 i2) h
    rcases h2 : uscore r1 with _ | r1b
    · simp only [h2]
    · have hr1b : ∀ c ∈ r1b, symChar c = true := by
        have := uscore_eq_some h2
        subst this
        exact fun d hd => hr1 d (by simp [hd])
      rcases h3 : hex8 r1b with _ | ⟨⟨g2, r2⟩⟩
      · simp only [h2, h3]
      · have hr2 : ∀ c ∈ r2, symChar c = true := by
          obtain ⟨_, hr, _, _⟩ := hex8_eq_some h3
          exact hr ▸ all_of_sufOf (sufOf_drop 8 r1b) hr1b
        rcases h4 : uscore r2 with _ | r2b
        · simp only [h2, h3, h4]
        · have hr2b : ∀ c ∈ r2b, symChar c = true := by
            have := uscore_eq_some h4
            subst this
            exact fun d hd => hr2 d (by simp [hd])
          rcases h5 : hex8 r2b with _ | ⟨⟨g3, r3⟩⟩
          · simp only [h2, h3, h4, h5]
          · have hr3 : ∀ c ∈ r3, symChar c = true := by
              obtain ⟨_, hr, _, _⟩ := hex8_eq_some h5
              exact hr ▸ all_of_sufOf (sufOf_drop 8 r2b) hr2b
            rcases h6 : uscore r3 with _ | r3b
            · simp only [h2, h3, h4, h5, h6]
            · have hr3b : ∀ c ∈ r3b, symChar c = true := by
                have := uscore_eq_some h6
                subst this
                exact fun d hd => hr3 d (by simp [hd])
              rcases h7 : hex8 r3b with _ | ⟨⟨g4, r4⟩⟩
              · simp only [h2, h3, h4, h5, h6, h7]
              · simp only [h2, h3, h4, h5, h6, h7]
                have hr4 : ∀ c ∈ r4, symChar c = true := by
                  obtain ⟨_, hr, _, _⟩ := hex8_eq_some h7
                  exact hr ▸ all_of_sufOf (sufOf_drop 8 r3b) hr3b
                simp [sepLook_eq_false_of_sym hr4]

theorem hexTail_none_head {c : Char} (hhex : hexDig c = false) (r pre : List Char) :
    hexTail pre (c :: r) = none := by
  unfold hexTail
  rw [hex8_none_head hhex]

end KicadSexp
namespace KicadSexp

theorem parse_string_nil : parse_string [] = none := rfl

theorem parse_string_none_head {c : Char} {r : List Char} (hws : wsChar c = false)
    (hq : c ≠ '"') : parse_string (c :: r) = none := by
  unfold parse_string
  rw [skipWs_cons_of_not_ws hws]
  simp [hq]

theorem parse_string_none_sym {s : List Char} (hne : s ≠ [])
    (hsym : ∀ c ∈ s, symChar c = true) (hws : ∀ c ∈ s, wsChar c = false) :
    parse_string s = none := by
  cases s with
  | nil => cases hne rfl
  | cons c r =>
    exact parse_string_none_head (hws c (by simp)) ((symChar_spec (hsym c (by simp))).2.1)

theorem parse_int_nil : parse_int [] = none := rfl

theorem parse_int_none_head {c : Char} (hws : wsChar c = false) (hdash : c ≠ '-')
    (hdig : c.isDigit = false) (r : List Char) : parse_int (c :: r) = none := by
  unfold parse_int
  rw [skipWs_cons_of_not_ws hws, signSplit_other hdash]
  exact intTail_none_head hdig _ _

theorem parse_int_none_sym {s : List Char} (hsym : ∀ c ∈ s, symChar c = true)
    (hws : ∀ c ∈ s, wsChar c = false) : parse_int s = none := by
  unfold parse_int
  rw [skipWs_eq_self hws]
  exact intTail_none_sym (all_of_sufOf (sufOf_signSplit s) hsym) _

theorem parse_float_nil : parse_float [] = none := rfl

theorem parse_float_none_head {c : Char} (hws : wsChar c = false) (hdash : c ≠ '-')
    (hdig : c.isDigit = false) (r : List Char) : parse_float (c :: r) = none := by
  unfold parse_float
  rw [skipWs_cons_of_not_ws hws, signSplit_other hdash]
  exact floatTail_none_head hdig _ _

theorem parse_float_none_sym {s : List Char} (hsym : ∀ c ∈ s, symChar c = true)
    (hws : ∀ c ∈ s, wsChar c = false) : parse_float s = none := by
  unfold parse_float
  rw [skipWs_eq_self hws]
  exact floatTail_none_sym (all_of_sufOf (sufOf_signSplit s) hsym) _

theorem parse_hexint64_nil : parse_hexint64 [] = none := rfl

theorem parse_hexint64_none_head {c : Char} (hws : wsChar c = false)
    (hhex : hexDig c = false) (h0 : c ≠ '0') (r : List Char) :
    parse_hexint64 (c :: r) = none := by
  unfold parse_hexint64
  rw [skipWs_cons_of_not_ws hws, hexPre_head h0 (c :: r) rfl]
  exact hexTail_none_head hhex _ _

theorem parse_hexint64_none_sym {s : List Char} (hsym : ∀ c ∈ s, symChar c = true)
    (hws : ∀ c ∈ s, wsChar c = false) : parse_hexint64 s = none := by
  unfold parse_hexint64
  rw [skipWs_eq_self hws]
  exact hexTail_none_sym (all_of_sufOf (sufOf_hexPre s) hsym) _

theorem parse_symbol_nil : parse_symbol [] = none := rfl

theorem parse_symbol_none_head {c : Char} (hws : wsChar c = false)
    (hsym : symChar c = false) (r : List Char) : parse_symbol (c :: r) = none := by
  unfold parse_symbol
  rw [skipWs_cons_of_not_ws hws]
  simp [List.takeWhile_cons, hsym]

theorem parse_symbol_none_sym {s : List Char} (hsym : ∀ c ∈ s, symChar c = true)
    (hws : ∀ c ∈ s, wsChar c = false) : parse_symbol s = none := by
  unfold parse_symbol
  rw [skipWs_eq_self hws]
  have hdw : s.dropWhile symChar = [] := List.dropWhile_eq_nil_iff.mpr hsym
  by_cases hsp : s.takeWhile symChar = []
  · simp [hsp]
  · simp [hsp, hdw, sepLook]

theorem tryLiterals_eq_none {input : List Char} (h1 : parse_string input = none)
    (h2 : parse_int input = none) (h3 : parse_hexint64 input = none)
    (h4 : parse_float input = none) (h5 : parse_symbol input = none) :
    tryLiterals input = none := by
  unfold tryLiterals
  simp only [h1, h2, h3, h4, h5]

theorem tryLiterals_nil : tryLiterals [] = none := rfl

theorem tryLiterals_none_sym {s : List Char} (hne : s ≠ [])
    (hsym : ∀ c ∈ s, symChar c = true) (hws : ∀ c ∈ s, wsChar c = false) :
    tryLiterals s = none :=
  tryLiterals_eq_none (parse_string_none_sym hne hsym hws) (parse_int_none_sym hsym hws)
    (parse_hexint64_none_sym hsym hws) (parse_float_none_sym hsym hws)
    (parse_symbol_none_sym hsym hws)

theorem tryLiterals_none_paren (r : List Char) : tryLiterals ('(' :: r) = none :=
  tryLiterals_eq_none (parse_string_none_head (by decide) (by decide))
    (parse_int_none_head (by decide) (by decide) (by decide) r)
    (parse_hexint64_none_head (by decide) (by decide) (by decide) r)
    (parse_float_none_head (by decide) (by decide) (by decide) r)
    (parse_symbol_none_head (by decide) (by decide) r)

theorem tryLiterals_none_quote {rest : List Char} (hstr : parse_string ('"' :: rest) = none) :
    tryLiterals ('"' :: rest) = none :=
  tryLiterals_eq_none hstr
    (parse_int_none_head (by decide) (by decide) (by decide) rest)
    (parse_hexint64_none_head (by decide) (by decide) (by decide) rest)
    (parse_float_none_head (by decide) (by decide) (by decide) rest)
    (parse_symbol_none_head (by decide) (by decide) rest)

theorem tryRecover_nil : tryRecover [] = none := rfl

theorem tryRecover_none_head {c : Char} (hpar : c ≠ '(') (r : List Char) :
    tryRecover (c :: r) = none := by
  simp [tryRecover, hpar]

theorem pItem_nil : ∀ f, pItem f [] = none := by
  intro f
  cases f with
  | zero => rfl
  | succ f => rfl

theorem pItem_none_head {c : Char} {r : List Char} (hlit : tryLiterals (c :: r) = none)
    (hws : wsChar c = false) (hpar : c ≠ '(') : ∀ f, pItem f (c :: r) = none := by
  intro f
  cases f with
  | zero => rfl
  | succ f =>
    unfold pItem
    simp only [hlit, skipWs_cons_of_not_ws hws]
    simp [hpar, tryRecover]

theorem pItems_stuck {s : List Char} (h : ∀ f, pItem f s = none) :
    ∀ f, pItems f s = ([], [], s) := by
  intro f
  cases f with
  | zero => rfl
  | succ f =>
    unfold pItems
    simp only [h f]

theorem parse_stuck {s : List Char} (hne : s ≠ []) (h : ∀ f, pItem f s = none) :
    parse s = ⟨none, [s.length]⟩ := by
  unfold parse
  rw [pItems_stuck h]
  simp [hne]

end KicadSexp
namespace KicadSexp

theorem parse_string_unterminated {t : List Char} (h : ∀ c ∈ t, c ≠ '"' ∧ c ≠ '\\') :
    parse_string ('"' :: t) = none := by
  unfold parse_string
  rw [skipWs_cons_of_not_ws (by decide)]
  simp [strBody_all_clean t h]

theorem parse_string_no_sep {body : List Char} (h : ∀ c ∈ body, c ≠ '"' ∧ c ≠ '\\') :
    parse_string ('"' :: (body ++ ['"'])) = none := by
  unfold parse_string
  rw [skipWs_cons_of_not_ws (by decide)]
  have hb := strBody_clean body [] h
  simp [hb, sepLook]

/-- C2: on a source made of a well-formed top-level list containing one
malformed nested parenthesized region (an unbalanced quote inside the inner
parens) followed by a second well-formed top-level list, the parser returns
exactly two top-level nodes: a List whose malformed nested region became a
single Invalid node while its sibling children parsed normally, and a fully
valid List. -/
theorem c2_recovery_preserves_siblings :
    parse ("(a (\"x) b) (c)".toList) =
      ⟨some [Sexp.List [Sexp.Symbol ['a'], Sexp.Invalid, Sexp.Symbol ['b']],
             Sexp.List [Sexp.Symbol ['c']]], [11]⟩ := by rfl

/-- C3 counterexample: an input whose only parse failure is inside a
recoverable parenthesized region (recovered as an Invalid node), yet the
parse result's error list is NOT empty — refuting the claim that such
recovery leaves an empty error list and a clean success. -/
theorem c3_counterexample_recovery_not_silent :
    (parse ("(\"x) y ".toList)).errors ≠ [] := by decide

/-- C3 amended: when every failure lies inside a recoverable parenthesized
region, the parser still produces the output tree (with Invalid nodes in
place of the failed regions), but recovery records the suppressed parse
error: the error list is non-empty (one entry for the recovered region), so
the parse is not reported as an error-free success. -/
theorem c3_amended_recovery_emits_error :
    parse ("(\"x) y ".toList) = ⟨some [Sexp.Invalid, Sexp.Symbol ['y']], [7]⟩ := by rfl

/-- C4: an otherwise well-formed literal token that reaches the end of the
input with no trailing separator fails to parse: (1) any non-empty input
made only of symbol-constituent, non-whitespace characters (this covers
bare `abc`, `123`, `1.5`, and hex-blob tokens at end of input); (2) any
well-formed quoted string literal ending exactly at the end of input.  In
both cases the top-level parse returns no output and reports an error,
because every literal recognizer demands a trailing space, tab, newline or
`)` by non-consuming lookahead. -/
theorem c4_eof_after_literal_fails :
    (∀ s : List Char, s ≠ [] → (∀ c ∈ s, symChar c = true ∧ wsChar c = false) →
      (parse s).output = none ∧ (parse s).errors ≠ []) ∧
    (∀ body : List Char, (∀ c ∈ body, c ≠ '"' ∧ c ≠ '\\') →
      (parse ('"' :: (body ++ ['"']))).output = none ∧
      (parse ('"' :: (body ++ ['"']))).errors ≠ []) := by
  constructor
  · intro s hne hchar
    have hsym : ∀ c ∈ s, symChar c = true := fun c hc => (hchar c hc).1
    have hws : ∀ c ∈ s, wsChar c = false := fun c hc => (hchar c hc).2
    have hitem : ∀ f, pItem f s = none := by
      cases s with
      | nil => cases hne rfl
      | cons c r =>
        exact pItem_none_head (tryLiterals_none_sym hne hsym hws) (hws c (by simp))
          ((symChar_spec (hsym c (by simp))).2.2.1)
    rw [parse_stuck hne hitem]
    simp
  · intro body h
    have hstr := parse_string_no_sep h
    have hitem := pItem_none_head (tryLiterals_none_quote hstr) (by decide) (by decide)
    rw [parse_stuck (by simp) hitem]
    simp

/-- Witness for C4 at the concrete inputs `123` and `"ab"`. -/
theorem c4_eof_after_literal_fails_witness :
    ((parse ['1', '2', '3']).output = none ∧ (parse ['1', '2', '3']).errors ≠ []) ∧
    ((parse ('"' :: (['a', 'b'] ++ ['"']))).output = none ∧
      (parse ('"' :: (['a', 'b'] ++ ['"']))).errors ≠ []) :=
  ⟨c4_eof_after_literal_fails.1 ['1', '2', '3'] (by decide) (by decide),
   c4_eof_after_literal_fails.2 ['a', 'b'] (by decide)⟩

/-- C5: an input whose first failure is a malformed literal at the top
level outside any parentheses — here an unterminated string `"…` with no
closing quote — is not recovered: the whole parse fails with no output
(no partial tree) and a non-empty error list. -/
theorem c5_top_level_failure_is_fatal (t : List Char) (hq : '"' ∉ t) (hb : '\\' ∉ t) :
    (parse ('"' :: t)).output = none ∧ (parse ('"' :: t)).errors ≠ [] := by
  have hclean : ∀ c ∈ t, c ≠ '"' ∧ c ≠ '\\' := fun c hc =>
    ⟨by rintro rfl; exact hq hc, by rintro rfl; exact hb hc⟩
  have hstr := parse_string_unterminated hclean
  have hitem := pItem_none_head (tryLiterals_none_quote hstr) (by decide) (by decide)
  rw [parse_stuck (by simp) hitem]
  simp

/-- Witness for C5 at the concrete unterminated string `"abc`. -/
theorem c5_top_level_failure_is_fatal_witness :
    (parse ('"' :: ['a', 'b', 'c'])).output = none ∧
      (parse ('"' :: ['a', 'b', 'c'])).errors ≠ [] :=
  c5_top_level_failure_is_fatal ['a', 'b', 'c'] (by decide) (by decide)

/-- C8: the string recognizer applied to the input `"\n" ` (quote,
backslash, n, quote, space) succeeds and yields the raw two-character span
backslash-n — the escape is recognized during matching but left undecoded
in the stored span. -/
theorem c8_escape_stored_raw :
    parse_string ("\"\\n\" ".toList) = some (['\\', 'n'], []) := by rfl

/-- C10: parsing is deterministic — the parse result (output nodes and
error list) is a pure function of the input text, so two runs on the same
text agree. -/
theorem c10_deterministic (s : List Char) : parse s = parse s := rfl

end KicadSexp
namespace KicadSexp

/-- C6: for every valid signed base-10 integer token (an optional `-`
followed by one or more digits) followed by a separator (whitespace or
`)`), the integer recognizer succeeds and yields exactly the token as the
matched span; the separator is checked by lookahead and not included in the
span (only trailing whitespace padding is consumed past it). -/
theorem c6_int_recognizer_exact (sgn ds rest : List Char)
    (hs : sgn = [] ∨ sgn = ['-']) (h1 : ds ≠ [])
    (h2 : ∀ d ∈ ds, d.isDigit = true) (h3 : sepLook rest = true) :
    parse_int (sgn ++ ds ++ rest) = some (sgn ++ ds, skipWs rest) := by
  have hhead : ∀ c, rest.head? = some c → c.isDigit = false := by
    intro c hc
    cases rest with
    | nil => cases hc
    | cons x r =>
      cases hc
      exact isDigit_eq_false_of_sep h3
  obtain ⟨htw, hdw⟩ := takeWhile_append_all ds rest h2 hhead
  have hint : ∀ s, intTail s (ds ++ rest) = some (s ++ ds, skipWs rest) := by
    intro s
    simp only [intTail, htw, hdw]
    simp [h1, h3]
  obtain ⟨d, ds', rfl⟩ : ∃ d ds', ds = d :: ds' := by
    cases ds with
    | nil => cases h1 rfl
    | cons a b => exact ⟨a, b, rfl⟩
  have hd : d.isDigit = true := h2 d (by simp)
  have hdd : d ≠ '-' := by rintro rfl; exact absurd hd (by decide)
  rcases hs with rfl | rfl
  · unfold parse_int
    rw [List.nil_append, List.cons_append,
        skipWs_cons_of_not_ws (not_ws_of_digit hd), signSplit_other hdd]
    exact hint []
  · unfold parse_int
    rw [show ((['-'] ++ (d :: ds') ++ rest : List Char)) = '-' :: ((d :: ds') ++ rest) by simp,
        skipWs_cons_of_not_ws (by decide), signSplit_dash]
    exact hint ['-']

/-- Witness for C6 at the token `-123` followed by `)`. -/
theorem c6_int_recognizer_exact_witness :
    parse_int (['-'] ++ ['1', '2', '3'] ++ [')']) =
      some (['-'] ++ ['1', '2', '3'], skipWs [')']) :=
  c6_int_recognizer_exact ['-'] ['1', '2', '3'] [')'] (Or.inr rfl) (by decide)
    (by decide) (by decide)

/-- C1: for an input of the form `(` ++ items ++ `)` where the inner text
parses as a sequence of valid items `cs` (consuming everything up to the
closing parenthesis, with no errors), the top-level parse succeeds with no
errors and returns exactly one node: a List whose children are the
recursively parsed items in source order. -/
theorem c1_parenthesized_items_one_list (inner : List Char) (cs : List Sexp)
    (hin : pItems (2 * inner.length + 4) (inner ++ [')']) = (cs, [], [')'])) :
    parse ('(' :: (inner ++ [')'])) = ⟨some [Sexp.List cs], []⟩ := by
  have hlen : parserFuel ('(' :: (inner ++ [')'])) = 2 * inner.length + 4 + 1 + 1 := by
    simp [parserFuel, List.length_append]
    omega
  have hitem : pItem (2 * inner.length + 4 + 1) ('(' :: (inner ++ [')'])) =
      some (Sexp.List cs, [], []) := by
    unfold pItem
    simp only [tryLiterals_none_paren,
      skipWs_cons_of_not_ws (by decide : wsChar '(' = false)]
    simp only [hin]
    simp [skipWs]
  unfold parse
  rw [hlen]
  unfold pItems
  simp only [hitem]
  rw [pItems_stuck pItem_nil]
  simp

/-- Witness for C1 on the inner item text `a 1`. -/
theorem c1_parenthesized_items_one_list_witness :
    parse ('(' :: ("a 1".toList ++ [')'])) =
      ⟨some [Sexp.List [Sexp.Symbol ['a'], Sexp.IntLiteral ['1']]], []⟩ :=
  c1_parenthesized_items_one_list ("a 1".toList)
    [Sexp.Symbol ['a'], Sexp.IntLiteral ['1']] (by rfl)

end KicadSexp
namespace KicadSexp

/-- One group of exactly 8 base-16 digits, as the spec words it. -/
def hexGroupB (g : List Char) : Bool := g.length == 8 && g.all hexDig

/-- The spec's wording of the hex-blob token body: four groups of exactly
8 hex digits, each pair of adjacent groups joined by a literal `_`, and
nothing else. -/
def hexBody (t : List Char) : Bool :=
  hexGroupB (t.take 8) &&
    match t.drop 8 with
    | '_' :: r1 =>
      hexGroupB (r1.take 8) &&
        match r1.drop 8 with
        | '_' :: r2 =>
          hexGroupB (r2.take 8) &&
            match r2.drop 8 with
            | '_' :: r3 => hexGroupB (r3.take 8) && (r3.drop 8).isEmpty
            | _ => false
        | _ => false
    | _ => false

/-- The spec's wording of a hex-blob token: an optional `0x` prefix
followed by the four-group body. -/
def hexSpec (tok : List Char) : Bool :=
  match tok with
  | '0' :: 'x' :: r => hexBody r
  | _ => hexBody tok

theorem hexGroupB_iff {g : List Char} :
    hexGroupB g = true ↔ g.length = 8 ∧ g.all hexDig = true := by
  simp [hexGroupB]

theorem hexDig_ne_x {c : Char} (h : hexDig c = true) : c ≠ 'x' := by
  rintro rfl; exact absurd h (by decide)

theorem not_ws_of_hexDig {c : Char} (h : hexDig c = true) : wsChar c = false := by
  by_contra hne
  have hw : wsChar c = true := by revert hne; cases wsChar c <;> simp
  simp only [wsChar, Bool.or_eq_true, decide_eq_true_eq] at hw
  rcases hw with ((rfl | rfl) | rfl) | rfl <;> exact absurd h (by decide)

theorem hex8_append {g : List Char} (hlen : g.length = 8) (hall : g.all hexDig = true)
    (X : List Char) : hex8 (g ++ X) = some (g, X) := by
  unfold hex8
  rw [List.take_left' hlen, List.drop_left' hlen]
  simp [hlen, hall]

theorem uscore_cons (X : List Char) : uscore ('_' :: X) = some X := by simp [uscore]

theorem hexPre_0x (Z : List Char) : hexPre ('0' :: 'x' :: Z) = (['0', 'x'], Z) := by
  simp [hexPre]

theorem hexPre_not_x {c1 c2 : Char} (h : c2 ≠ 'x') (r : List Char) :
    hexPre (c1 :: c2 :: r) = ([], c1 :: c2 :: r) := by
  simp [hexPre, h]

theorem hexSpec_0x (X : List Char) : hexSpec ('0' :: 'x' :: X) = hexBody X := by
  simp [hexSpec]

theorem hexSpec_plain {c1 c2 : Char} (h : c2 ≠ 'x') (X : List Char) :
    hexSpec (c1 :: c2 :: X) = hexBody (c1 :: c2 :: X) := by
  unfold hexSpec
  split
  · next r heq =>
    injection heq with e1 e2
    injection e2 with e2 e3
    exact absurd e2 h
  · rfl

theorem hexBody_of_groups {g1 g2 g3 g4 : List Char}
    (h1l : g1.length = 8) (h1a : g1.all hexDig = true)
    (h2l : g2.length = 8) (h2a : g2.all hexDig = true)
    (h3l : g3.length = 8) (h3a : g3.all hexDig = true)
    (h4l : g4.length = 8) (h4a : g4.all hexDig = true) :
    hexBody (g1 ++ '_' :: (g2 ++ '_' :: (g3 ++ '_' :: g4))) = true := by
  unfold hexBody
  rw [List.take_left' h1l, List.drop_left' h1l]
  simp only [List.take_left' h2l, List.drop_left' h2l,
    List.take_left' h3l, List.drop_left' h3l,
    List.take_of_length_le h4l.le, List.drop_of_length_le h4l.le]
  simp [hexGroupB, h1l, h1a, h2l, h2a, h3l, h3a, h4l, h4a]

theorem hexBody_decomp {t : List Char} (h : hexBody t = true) :
    ∃ g1 g2 g3 g4, t = g1 ++ '_' :: (g2 ++ '_' :: (g3 ++ '_' :: g4)) ∧
      g1.length = 8 ∧ g1.all hexDig = true ∧ g2.length = 8 ∧ g2.all hexDig = true ∧
      g3.length = 8 ∧ g3.all hexDig = true ∧ g4.length = 8 ∧ g4.all hexDig = true := by
  unfold hexBody at h
  rw [Bool.and_eq_true] at h
  obtain ⟨hg1, h⟩ := h
  split at h
  case h_2 => cases h
  case h_1 r1 heq1 =>
    rw [Bool.and_eq_true] at h
    obtain ⟨hg2, h⟩ := h
    split at h
    case h_2 => cases h
    case h_1 r2 heq2 =>
      rw [Bool.and_eq_true] at h
      obtain ⟨hg3, h⟩ := h
      split at h
      case h_2 => cases h
      case h_1 r3 heq3 =>
        rw [Bool.and_eq_true] at h
        obtain ⟨hg4, hemp⟩ := h
        have hr3 : r3.drop 8 = [] := by
          cases e : r3.drop 8 with
          | nil => rfl
          | cons a b => rw [e] at hemp; cases hemp
        obtain ⟨e1l, e1a⟩ := hexGroupB_iff.mp hg1
        obtain ⟨e2l, e2a⟩ := hexGroupB_iff.mp hg2
        obtain ⟨e3l, e3a⟩ := hexGroupB_iff.mp hg3
        obtain ⟨e4l, e4a⟩ := hexGroupB_iff.mp hg4
        refine ⟨t.take 8, r1.take 8, r2.take 8, r3.take 8, ?_,
          e1l, e1a, e2l, e2a, e3l, e3a, e4l, e4a⟩
        have d3 : r3 = r3.take 8 := by
          conv_lhs => rw [← List.take_append_drop 8 r3]
          rw [hr3, List.append_nil]
        have k2 : r2.drop 8 = '_' :: r3.take 8 := by
          rw [heq3]
          conv_lhs => rw [d3]
        have kr2 : r2 = r2.take 8 ++ '_' :: r3.take 8 := by
          conv_lhs => rw [← List.take_append_drop 8 r2]
          rw [k2]
        have kr1 : r1 = r1.take 8 ++ '_' :: (r2.take 8 ++ '_' :: r3.take 8) := by
          conv_lhs => rw [← List.take_append_drop 8 r1]
          rw [heq2]
          conv_lhs => rw [kr2]
        conv_lhs => rw [← List.take_append_drop 8 t]
        rw [heq1]
        conv_lhs => rw [kr1]

theorem hexTail_complete (pre : List Char) {g1 g2 g3 g4 : List Char} (rest : List Char)
    (h1l : g1.length = 8) (h1a : g1.all hexDig = true)
    (h2l : g2.length = 8) (h2a : g2.all hexDig = true)
    (h3l : g3.length = 8) (h3a : g3.all hexDig = true)
    (h4l : g4.length = 8) (h4a : g4.all hexDig = true)
    (hsep : sepLook rest = true) :
    hexTail pre (g1 ++ '_' :: (g2 ++ '_' :: (g3 ++ '_' :: (g4 ++ rest)))) =
      some (pre ++ g1 ++ '_' :: g2 ++ '_' :: g3 ++ '_' :: g4, skipWs rest) := by
  unfold hexTail
  rw [hex8_append h1l h1a]
  simp only [uscore_cons, hex8_append h2l h2a, hex8_append h3l h3a, hex8_append h4l h4a]
  simp [hsep]

theorem hexTail_eq_some {pre i2 span rest : List Char}
    (h : hexTail pre i2 = some (span, rest)) :
    ∃ g1 g2 g3 g4,
      span = pre ++ g1 ++ '_' :: g2 ++ '_' :: g3 ++ '_' :: g4 ∧
      g1.length = 8 ∧ g1.all hexDig = true ∧ g2.length = 8 ∧ g2.all hexDig = true ∧
      g3.length = 8 ∧ g3.all hexDig = true ∧ g4.length = 8 ∧ g4.all hexDig = true := by
  unfold hexTail at h
  split at h
  case h_1 => cases h
  case h_2 g1 r1 he1 =>
    split at h
    case h_1 => cases h
    case h_2 r1b he2 =>
      split at h
      case h_1 => cases h
      case h_2 g2 r2 he3 =>
        split at h
        case h_1 => cases h
        case h_2 r2b he4 =>
          split at h
          case h_1 => cases h
          case h_2 g3 r3 he5 =>
            split at h
            case h_1 => cases h
            case h_2 r3b he6 =>
              split at h
              case h_1 => cases h
              case h_2 g4 r4 he7 =>
                split at h
                · injection h with h'
                  obtain ⟨hspan, hrest⟩ := Prod.mk.inj h'
                  obtain ⟨t1, _, l1, a1⟩ := hex8_eq_some he1
                  obtain ⟨t3, _, l2, a2⟩ := hex8_eq_some he3
                  obtain ⟨t5, _, l3, a3⟩ := hex8_eq_some he5
                  obtain ⟨t7, _, l4, a4⟩ := hex8_eq_some he7
                  exact ⟨g1, g2, g3, g4, hspan.symm, l1, a1, l2, a2, l3, a3, l4, a4⟩
                · cases h

end KicadSexp
namespace KicadSexp

theorem parse_hexint64_sound {input span rest : List Char}
    (h : parse_hexint64 input = some (span, rest)) : hexSpec span = true := by
  unfold parse_hexint64 at h
  obtain ⟨g1, g2, g3, g4, hspan, h1l, h1a, h2l, h2a, h3l, h3a, h4l, h4a⟩ :=
    hexTail_eq_some h
  rcases hexPre_cases (skipWs input) with hp | ⟨r, hr, hp⟩
  · rw [hp] at hspan
    obtain ⟨a, b, g1', rfl⟩ : ∃ a b t, g1 = a :: b :: t := by
      match g1, h1l with
      | a :: b :: t, _ => exact ⟨a, b, t, rfl⟩
    have hdb : hexDig b = true := by
      simp only [List.all_cons, Bool.and_eq_true] at h1a
      exact h1a.2.1
    have hspan' : span = a :: b :: (g1' ++ '_' :: (g2 ++ '_' :: (g3 ++ '_' :: g4))) := by
      rw [hspan]
      simp [List.cons_append, List.append_assoc]
    rw [hspan', hexSpec_plain (hexDig_ne_x hdb)]
    have := hexBody_of_groups h1l h1a h2l h2a h3l h3a h4l h4a
    rw [show ((a :: b :: g1') ++ '_' :: (g2 ++ '_' :: (g3 ++ '_' :: g4)))
        = a :: b :: (g1' ++ '_' :: (g2 ++ '_' :: (g3 ++ '_' :: g4))) from by simp] at this
    exact this
  · rw [hp] at hspan
    have hspan' : span = '0' :: 'x' :: (g1 ++ '_' :: (g2 ++ '_' :: (g3 ++ '_' :: g4))) := by
      rw [hspan]
      simp [List.cons_append, List.append_assoc]
    rw [hspan', hexSpec_0x]
    exact hexBody_of_groups h1l h1a h2l h2a h3l h3a h4l h4a

theorem parse_hexint64_complete {tok rest : List Char} (h : hexSpec tok = true)
    (hsep : sepLook rest = true) :
    parse_hexint64 (tok ++ rest) = some (tok, skipWs rest) := by
  unfold hexSpec at h
  split at h
  · next r =>
    obtain ⟨g1, g2, g3, g4, hteq, h1l, h1a, h2l, h2a, h3l, h3a, h4l, h4a⟩ :=
      hexBody_decomp h
    subst hteq
    unfold parse_hexint64
    rw [show ('0' :: 'x' :: (g1 ++ '_' :: (g2 ++ '_' :: (g3 ++ '_' :: g4)))) ++ rest
        = '0' :: 'x' :: (g1 ++ '_' :: (g2 ++ '_' :: (g3 ++ '_' :: (g4 ++ rest)))) from by
          simp [List.cons_append, List.append_assoc]]
    rw [skipWs_cons_of_not_ws (by decide), hexPre_0x]
    rw [hexTail_complete _ rest h1l h1a h2l h2a h3l h3a h4l h4a hsep]
    simp [List.cons_append, List.append_assoc]
  · next hdef =>
    obtain ⟨g1, g2, g3, g4, hteq, h1l, h1a, h2l, h2a, h3l, h3a, h4l, h4a⟩ :=
      hexBody_decomp h
    obtain ⟨a, b, g1', rfl⟩ : ∃ a b t, g1 = a :: b :: t := by
      match g1, h1l with
      | a :: b :: t, _ => exact ⟨a, b, t, rfl⟩
    have hda : hexDig a = true := by
      simp only [List.all_cons, Bool.and_eq_true] at h1a
      exact h1a.1
    have hdb : hexDig b = true := by
      simp only [List.all_cons, Bool.and_eq_true] at h1a
      exact h1a.2.1
    subst hteq
    unfold parse_hexint64
    rw [show (((a :: b :: g1') ++ '_' :: (g2 ++ '_' :: (g3 ++ '_' :: g4))) ++ rest)
        = a :: b :: (g1' ++ '_' :: (g2 ++ '_' :: (g3 ++ '_' :: (g4 ++ rest)))) from by
          simp [List.cons_append, List.append_assoc]]
    rw [skipWs_cons_of_not_ws (not_ws_of_hexDig hda), hexPre_not_x (hexDig_ne_x hdb)]
    rw [show (a :: b :: (g1' ++ '_' :: (g2 ++ '_' :: (g3 ++ '_' :: (g4 ++ rest)))))
        = (a :: b :: g1') ++ '_' :: (g2 ++ '_' :: (g3 ++ '_' :: (g4 ++ rest))) from by
          simp [List.cons_append]]
    rw [hexTail_complete _ rest h1l h1a h2l h2a h3l h3a h4l h4a hsep]
    simp [List.cons_append, List.append_assoc]

/-- C7: the hex-blob recognizer accepts exactly the tokens made of an
optional `0x` prefix followed by four groups of exactly 8 base-16 digits
joined by `_`: (soundness) every span it returns satisfies that shape, and
(completeness) every such token followed by a separator is accepted with
exactly the token as the span.  Any variant whose groups are not exactly 8
hex digits, or with a missing underscore, therefore cannot be produced. -/
theorem c7_hex_blob_exact :
    (∀ input span rest : List Char,
        parse_hexint64 input = some (span, rest) → hexSpec span = true) ∧
    (∀ tok rest : List Char, hexSpec tok = true → sepLook rest = true →
        parse_hexint64 (tok ++ rest) = some (tok, skipWs rest)) :=
  ⟨fun _ _ _ h => parse_hexint64_sound h,
   fun _ _ h hs => parse_hexint64_complete h hs⟩

/-- Witness for C7 on the spec's example token
`0xdeadbeef_beefdead_44552255_12345678` followed by a space. -/
theorem c7_hex_blob_exact_witness :
    parse_hexint64 ("0xdeadbeef_beefdead_44552255_12345678".toList ++ [' ']) =
      some ("0xdeadbeef_beefdead_44552255_12345678".toList, skipWs [' ']) :=
  c7_hex_blob_exact.2 ("0xdeadbeef_beefdead_44552255_12345678".toList) [' ']
    (by rfl) (by rfl)

end KicadSexp
namespace KicadSexp

mutual

/-- All literal text spans stored in a node. -/
def spansOf : Sexp → List (List Char)
  | Sexp.Invalid => []
  | Sexp.Symbol t => [t]
  | Sexp.StringLiteral t => [t]
  | Sexp.IntLiteral t => [t]
  | Sexp.HexIntLiteral t => [t]
  | Sexp.FloatLiteral t => [t]
  | Sexp.List cs => spansList cs

/-- All literal text spans stored in a list of nodes. -/
def spansList : List Sexp → List (List Char)
  | [] => []
  | x :: xs => spansOf x ++ spansList xs

end

theorem mem_spansList {t : List Char} : ∀ {cs : List Sexp},
    t ∈ spansList cs → ∃ x ∈ cs, t ∈ spansOf x := by
  intro cs
  induction cs with
  | nil => intro h; cases h
  | cons x xs ih =>
    intro h
    rw [spansList] at h
    rcases List.mem_append.mp h with h | h
    · exact ⟨x, by simp, h⟩
    · obtain ⟨y, hy, ht⟩ := ih h
      exact ⟨y, by simp [hy], ht⟩

theorem parse_string_spans {input t r : List Char}
    (h : parse_string input = some (t, r)) : SliceOf t input ∧ SufOf r input := by
  unfold parse_string at h
  split at h
  · cases h
  · next c i1 e =>
    split at h
    · next hc =>
      split at h
      · cases h
      · next c2 r3 e2 =>
        split at h
        · next hc2 =>
          split at h
          · next hsep =>
            injection h with h'
            obtain ⟨ht, hr⟩ := Prod.mk.inj h'
            subst ht hr hc hc2
            have hsuf : SufOf ('"' :: i1) input := e ▸ sufOf_skipWs input
            have hi1 : (strBody i1).1 ++ (strBody i1).2 = i1 := strBody_split i1
            constructor
            · refine SliceOf.widen ⟨['"'], (strBody i1).2, ?_⟩ hsuf
              rw [List.append_assoc, hi1]
              rfl
            · refine SufOf.trans (SufOf.trans (sufOf_skipWs r3) (sufOf_cons '"' r3)) ?_
              rw [← e2]
              exact SufOf.trans ⟨(strBody i1).1, hi1.symm⟩
                (SufOf.trans (sufOf_cons '"' i1) hsuf)
          · cases h
        · cases h
    · cases h

theorem intTail_eq_some {sgn i2 t r : List Char} (h : intTail sgn i2 = some (t, r)) :
    t = sgn ++ i2.takeWhile Char.isDigit ∧ r = skipWs (i2.dropWhile Char.isDigit) := by
  simp only [intTail] at h
  split at h
  · cases h
  · split at h
    · injection h with h'
      obtain ⟨h1, h2⟩ := Prod.mk.inj h'
      exact ⟨h1.symm, h2.symm⟩
    · cases h

theorem signSplit_shape (l : List Char) : (signSplit l).1 ++ (signSplit l).2 = l := by
  cases l with
  | nil => rfl
  | cons c r =>
    by_cases h : c = '-'
    · subst h; rw [signSplit_dash]; rfl
    · rw [signSplit_other h]; rfl

theorem parse_int_spans {input t r : List Char}
    (h : parse_int input = some (t, r)) : SliceOf t input ∧ SufOf r input := by
  unfold parse_int at h
  obtain ⟨ht, hr⟩ := intTail_eq_some h
  subst ht hr
  set i1 := skipWs input with hi1
  set sgn := (signSplit i1).1 with hsgn
  set i2 := (signSplit i1).2 with hi2
  have hs : sgn ++ i2 = i1 := signSplit_shape i1
  have hsuf : SufOf i1 input := sufOf_skipWs input
  constructor
  · refine SliceOf.widen ⟨[], i2.dropWhile Char.isDigit, ?_⟩ hsuf
    rw [List.nil_append, List.append_assoc, List.takeWhile_append_dropWhile, hs]
  · exact SufOf.trans (SufOf.trans (sufOf_skipWs _) (sufOf_dropWhile _ i2))
      (SufOf.trans ⟨sgn, hs.symm⟩ hsuf)

theorem floatTail_eq_some {sgn i2 t r : List Char} (h : floatTail sgn i2 = some (t, r)) :
    ∃ r2, i2.dropWhile Char.isDigit = '.' :: r2 ∧
      t = sgn ++ i2.takeWhile Char.isDigit ++ '.' :: r2.takeWhile Char.isDigit ∧
      r = skipWs (r2.dropWhile Char.isDigit) := by
  simp only [floatTail] at h
  split at h
  · cases h
  · split at h
    · cases h
    · next c r2 heq =>
      split at h
      · next hc =>
        subst hc
        split at h
        · cases h
        · split at h
          · injection h with h'
            obtain ⟨h1, h2⟩ := Prod.mk.inj h'
            exact ⟨r2, heq, h1.symm, h2.symm⟩
          · cases h
      · cases h

theorem parse_float_spans {input t r : List Char}
    (h : parse_float input = some (t, r)) : SliceOf t input ∧ SufOf r input := by
  unfold parse_float at h
  obtain ⟨r2, heq, ht, hr⟩ := floatTail_eq_some h
  subst ht hr
  set i1 := skipWs input with hi1
  set sgn := (signSplit i1).1 with hsgn
  set i2 := (signSplit i1).2 with hi2
  have hs : sgn ++ i2 = i1 := signSplit_shape i1
  have hsuf : SufOf i1 input := sufOf_skipWs input
  have hdecomp : i2 = i2.takeWhile Char.isDigit ++ '.' ::
      (r2.takeWhile Char.isDigit ++ r2.dropWhile Char.isDigit) := by
    conv_lhs => rw [← List.takeWhile_append_dropWhile (p := Char.isDigit) (l := i2)]
    rw [heq, List.takeWhile_append_dropWhile]
  constructor
  · refine SliceOf.widen ⟨[], r2.dropWhile Char.isDigit, ?_⟩ hsuf
    conv_lhs => rw [← hs, hdecomp]
    simp [List.append_assoc]
  · have h1 : SufOf ('.' :: r2) i2 := by
      rw [← heq]; exact sufOf_dropWhile _ i2
    exact SufOf.trans (sufOf_skipWs _) (SufOf.trans (sufOf_dropWhile _ r2)
      (SufOf.trans (sufOf_cons '.' r2) (SufOf.trans h1 (SufOf.trans ⟨sgn, hs.symm⟩ hsuf))))

theorem parse_symbol_spans {input t r : List Char}
    (h : parse_symbol input = some (t, r)) : SliceOf t input ∧ SufOf r input := by
  simp only [parse_symbol] at h
  split at h
  · cases h
  · split at h
    · injection h with h'
      obtain ⟨ht, hr⟩ := Prod.mk.inj h'
      subst ht hr
      have hsuf : SufOf (skipWs input) input := sufOf_skipWs input
      constructor
      · refine SliceOf.widen ⟨[], (skipWs input).dropWhile symChar, ?_⟩ hsuf
        rw [List.nil_append, List.takeWhile_append_dropWhile]
      · exact SufOf.trans (SufOf.trans (sufOf_skipWs _) (sufOf_dropWhile _ _)) hsuf
    · cases h

end KicadSexp
namespace KicadSexp

theorem hex8_eq_some_decomp {l g r : List Char} (h : hex8 l = some (g, r)) : l = g ++ r := by
  obtain ⟨hg, hr, _, _⟩ := hex8_eq_some h
  rw [hg, hr, List.take_append_drop]

theorem hexTail_some_shape {pre i2 span rest : List Char}
    (h : hexTail pre i2 = some (span, rest)) :
    ∃ g1 g2 g3 g4 r4,
      i2 = g1 ++ '_' :: (g2 ++ '_' :: (g3 ++ '_' :: (g4 ++ r4))) ∧
      span = pre ++ g1 ++ '_' :: g2 ++ '_' :: g3 ++ '_' :: g4 ∧
      rest = skipWs r4 := by
  unfold hexTail at h
  split at h
  case h_1 => cases h
  case h_2 g1 r1 he1 =>
    split at h
    case h_1 => cases h
    case h_2 r1b he2 =>
      split at h
      case h_1 => cases h
      case h_2 g2 r2 he3 =>
        split at h
        case h_1 => cases h
        case h_2 r2b he4 =>
          split at h
          case h_1 => cases h
          case h_2 g3 r3 he5 =>
            split at h
            case h_1 => cases h
            case h_2 r3b he6 =>
              split at h
              case h_1 => cases h
              case h_2 g4 r4 he7 =>
                split at h
                · injection h with h'
                  obtain ⟨hspan, hrest⟩ := Prod.mk.inj h'
                  refine ⟨g1, g2, g3, g4, r4, ?_, hspan.symm, hrest.symm⟩
                  rw [hex8_eq_some_decomp he1, uscore_eq_some he2,
                    hex8_eq_some_decomp he3, uscore_eq_some he4,
                    hex8_eq_some_decomp he5, uscore_eq_some he6,
                    hex8_eq_some_decomp he7]
                · cases h

theorem hexPre_shape (l : List Char) : (hexPre l).1 ++ (hexPre l).2 = l := by
  rcases hexPre_cases l with hp | ⟨r, rfl, hp⟩
  · rw [hp]; rfl
  · rw [hp]; rfl

theorem parse_hexint64_spans {input t r : List Char}
    (h : parse_hexint64 input = some (t, r)) : SliceOf t input ∧ SufOf r input := by
  unfold parse_hexint64 at h
  obtain ⟨g1, g2, g3, g4, r4, hi2, ht, hr⟩ := hexTail_some_shape h
  subst ht hr
  set i1 := skipWs input with hi1
  set pre := (hexPre i1).1 with hpre
  set i2 := (hexPre i1).2 with hi2d
  have hs : pre ++ i2 = i1 := hexPre_shape i1
  have hsuf : SufOf i1 input := sufOf_skipWs input
  constructor
  · refine SliceOf.widen ⟨[], r4, ?_⟩ hsuf
    conv_lhs => rw [← hs, hi2]
    simp [List.append_assoc, List.cons_append]
  · have h4 : SufOf r4 i2 := by
      rw [hi2]
      exact ⟨g1 ++ '_' :: (g2 ++ '_' :: (g3 ++ '_' :: g4)), by
        simp [List.append_assoc, List.cons_append]⟩
    exact SufOf.trans (sufOf_skipWs _)
      (SufOf.trans h4 (SufOf.trans ⟨pre, hs.symm⟩ hsuf))

theorem tryLiterals_spans {input : List Char} {x : Sexp} {r : List Char}
    (h : tryLiterals input = some (x, r)) :
    (∀ t ∈ spansOf x, SliceOf t input) ∧ SufOf r input := by
  unfold tryLiterals at h
  split at h
  · next t' r' he =>
    injection h with h'
    obtain ⟨hx, hr⟩ := Prod.mk.inj h'
    subst hx hr
    obtain ⟨hsl, hsf⟩ := parse_string_spans he
    exact ⟨by intro u hu; rw [spansOf] at hu; simp at hu; exact hu ▸ hsl, hsf⟩
  · split at h
    · next t' r' he =>
      injection h with h'
      obtain ⟨hx, hr⟩ := Prod.mk.inj h'
      subst hx hr
      obtain ⟨hsl, hsf⟩ := parse_int_spans he
      exact ⟨by intro u hu; rw [spansOf] at hu; simp at hu; exact hu ▸ hsl, hsf⟩
    · split at h
      · next t' r' he =>
        injection h with h'
        obtain ⟨hx, hr⟩ := Prod.mk.inj h'
        subst hx hr
        obtain ⟨hsl, hsf⟩ := parse_hexint64_spans he
        exact ⟨by intro u hu; rw [spansOf] at hu; simp at hu; exact hu ▸ hsl, hsf⟩
      · split at h
        · next t' r' he =>
          injection h with h'
          obtain ⟨hx, hr⟩ := Prod.mk.inj h'
          subst hx hr
          obtain ⟨hsl, hsf⟩ := parse_float_spans he
          exact ⟨by intro u hu; rw [spansOf] at hu; simp at hu; exact hu ▸ hsl, hsf⟩
        · split at h
          · next t' r' he =>
            injection h with h'
            obtain ⟨hx, hr⟩ := Prod.mk.inj h'
            subst hx hr
            obtain ⟨hsl, hsf⟩ := parse_symbol_spans he
            exact ⟨by intro u hu; rw [spansOf] at hu; simp at hu; exact hu ▸ hsl, hsf⟩
          · cases h

theorem scanRec_suf : ∀ (l : List Char) (d : Nat) (r : List Char),
    scanRec l d = some r → SufOf r l := by
  intro l
  induction l with
  | nil => intro d r h; cases h
  | cons c t ih =>
    intro d r h
    unfold scanRec at h
    split at h
    · exact SufOf.trans (ih _ _ h) (sufOf_cons c t)
    · split at h
      · split at h
        · injection h with h'
          exact h' ▸ sufOf_cons c t
        · exact SufOf.trans (ih _ _ h) (sufOf_cons c t)
      · exact SufOf.trans (ih _ _ h) (sufOf_cons c t)

theorem tryRecover_spans {input : List Char} {x : Sexp} {es : List Nat} {r : List Char}
    (h : tryRecover input = some (x, es, r)) : x = Sexp.Invalid ∧ SufOf r input := by
  unfold tryRecover at h
  split at h
  · next c cr =>
    split at h
    · next hc =>
      split at h
      · next rest hscan =>
        injection h with h'
        obtain ⟨hx, h2⟩ := Prod.mk.inj h'
        obtain ⟨hes, hr⟩ := Prod.mk.inj h2
        subst hc
        exact ⟨hx.symm, hr ▸ SufOf.trans (scanRec_suf cr 1 rest hscan) (sufOf_cons '(' cr)⟩
      · cases h
    · cases h
  · cases h

end KicadSexp
namespace KicadSexp

theorem pItem_pItems_spans : ∀ fuel : Nat,
    (∀ input x es rest, pItem fuel input = some (x, es, rest) →
        (∀ t ∈ spansOf x, SliceOf t input) ∧ SufOf rest input) ∧
    (∀ input, (∀ x ∈ (pItems fuel input).1, ∀ t ∈ spansOf x, SliceOf t input) ∧
        SufOf (pItems fuel input).2.2 input) := by
  intro fuel
  induction fuel with
  | zero =>
    constructor
    · intro input x es rest h
      cases h
    · intro input
      exact ⟨(by intro x hx; cases hx), sufOf_refl _⟩
  | succ fuel ih =>
    obtain ⟨ihItem, ihItems⟩ := ih
    constructor
    · intro input x es rest h
      unfold pItem at h
      split at h
      · next x' rest' he =>
        injection h with h'
        obtain ⟨hx, h2⟩ := Prod.mk.inj h'
        obtain ⟨_, hr⟩ := Prod.mk.inj h2
        subst hx hr
        exact tryLiterals_spans he
      · split at h
        · rename_i z c rr e
          split at h
          · rename_i hc
            split at h
            split at h
            · split at h
              · rename_i pv csv esv lv c2v r3v hpe hc2
                injection h with h'
                obtain ⟨hx, h2⟩ := Prod.mk.inj h'
                obtain ⟨_, hr⟩ := Prod.mk.inj h2
                subst hx hr hc hc2
                have hsuf : SufOf ('(' :: rr) input := e ▸ sufOf_skipWs input
                have hitems := ihItems rr
                rw [hpe] at hitems
                constructor
                · intro t ht
                  rw [spansOf] at ht
                  obtain ⟨y, hy, hty⟩ := mem_spansList ht
                  exact SliceOf.widen (hitems.1 y hy t hty)
                    (SufOf.trans (sufOf_cons '(' rr) hsuf)
                · have h3 : SufOf r3v rr :=
                    SufOf.trans (sufOf_cons ')' r3v) hitems.2
                  exact SufOf.trans (sufOf_skipWs r3v) (SufOf.trans h3
                    (SufOf.trans (sufOf_cons '(' rr) hsuf))
              · obtain ⟨hx, hr⟩ := tryRecover_spans h
                subst hx
                exact ⟨(by intro t ht; cases ht), hr⟩
            · obtain ⟨hx, hr⟩ := tryRecover_spans h
              subst hx
              exact ⟨(by intro t ht; cases ht), hr⟩
          · rename_i hc
            obtain ⟨hx, hr⟩ := tryRecover_spans h
            subst hx
            exact ⟨(by intro t ht; cases ht), hr⟩
        · obtain ⟨hx, hr⟩ := tryRecover_spans h
          subst hx
          exact ⟨(by intro t ht; cases ht), hr⟩
    · intro input
      unfold pItems
      cases hit : pItem fuel input with
      | none =>
        exact ⟨(by intro x hx; cases hx), sufOf_refl _⟩
      | some val =>
        obtain ⟨x, es, rest⟩ := val
        obtain ⟨hx, hrest⟩ := ihItem input x es rest hit
        rcases e : pItems fuel rest with ⟨xs, es2, rest2⟩
        have hxs := ihItems rest
        rw [e] at hxs
        dsimp only
        rw [e]
        dsimp only
        constructor
        · intro y hy t ht
          rcases List.mem_cons.mp hy with rfl | hy'
          · exact hx t ht
          · exact SliceOf.widen (hxs.1 y hy' t ht) hrest
        · exact SufOf.trans hxs.2 hrest

/-- C9: for every node produced by a successful parse, the payload of every
Symbol, StringLiteral, IntLiteral, HexIntLiteral and FloatLiteral node is a
contiguous slice of the original source text (for strings, the raw slice
between the delimiting quotes) — never a copied-and-transformed string. -/
theorem c9_spans_are_source_slices (s : List Char) (xs : List Sexp)
    (h : (parse s).output = some xs) :
    ∀ x ∈ xs, ∀ t ∈ spansOf x, SliceOf t s := by
  unfold parse at h
  rcases e : pItems (parserFuel s) s with ⟨xs0, es, rest⟩
  rw [e] at h
  dsimp only at h
  by_cases hr : rest = []
  · rw [if_pos hr] at h
    replace h : some xs0 = some xs := h
    injection h with h'
    subst h'
    have hsp := (pItem_pItems_spans (parserFuel s)).2 s
    rw [e] at hsp
    exact hsp.1
  · rw [if_neg hr] at h
    replace h : (none : Option (List Sexp)) = some xs := h
    cases h

/-- Witness for C9: the symbol span parsed from the source `a ` is a slice
of that source. -/
theorem c9_spans_are_source_slices_witness : SliceOf ['a'] ("a ".toList) :=
  c9_spans_are_source_slices ("a ".toList) [Sexp.Symbol ['a']] (by rfl)
    (Sexp.Symbol ['a']) (List.Mem.head _) ['a'] (List.Mem.head _)

end KicadSexp
